import Mathlib

/-!
Verification of the Amplience SFCC composable-commerce repository.

The development shallowly embeds the slot-interleaved pagination logic of
`src/app/pages/product-list/index.jsx` (`calculatePageOffsets`,
`enrichResults`, `toggleFilter`) and the CLI import command handler of the
automation utility.  JavaScript numbers are modelled as `Nat`/`Int`
(all quantities involved are integers in every exercised path), JavaScript
arrays as `List`, absent values (`null`/`undefined`) as `Option`, and the
in-place mutation of the slot array performed by `enrichResults` as explicit
state passing (the function returns the updated slot list alongside its
result).
-/

namespace AmplienceSfcc

/-- A CMS slot record: grid position (item index), row span, column span and
the `isAmplience` marker field that `enrichResults` sets on slots it places
(absent on input, modelled as `false`). -/
structure Slot where
  position : Nat
  rows : Nat
  cols : Nat
  isAmplience : Bool
deriving DecidableEq, Repr

/-- Occupied-cell count of a slot as computed in `calculatePageOffsets`
(line 135): `isMobile ? 1 : Number(slot.cols) * Number(slot.rows)`. -/
def slotSizeCalc (isMobile : Bool) (slot : Slot) : Nat :=
  if isMobile then 1 else slot.cols * slot.rows

/-- Occupied-cell count of a slot as computed in `enrichResults`
(line 176): `isMobile ? 1 : Number(slot.rows) * Number(slot.cols)`. -/
def slotSizeEnrich (isMobile : Bool) (slot : Slot) : Nat :=
  if isMobile then 1 else slot.rows * slot.cols

/-- The mutable state of `calculatePageOffsets`: the `pages` array built so
far, the `processed` cursor and the accumulated `offset` shift.  Page-table
entries are `pages.length * pageSize - offset`, which can be negative for
oversized slots, hence `Int`. -/
structure CState where
  pages : List Int
  processed : Nat
  offset : Nat
deriving Repr, DecidableEq

/-- `fillPages(upTo)` of `calculatePageOffsets`: pushes
`pages.length * pageSize - offset` while `pages.length <= pageNumber(upTo + offset)`
(`pageNumber(i) = Math.floor(i / pageSize)`), then sets `processed = upTo`.
The `while` loop is rendered as appending the missing entries in one go. -/
def fillPages (pageSize : Nat) (st : CState) (upTo : Nat) : CState :=
  let uptoBasePage := (upTo + st.offset) / pageSize
  let need := uptoBasePage + 1 - st.pages.length
  { pages := st.pages ++
      (List.range need).map
        (fun i => ((((st.pages.length + i) * pageSize : Nat) : Int)) - ((st.offset : Nat) : Int)),
    processed := upTo,
    offset := st.offset }

/-- `skipContent(size)` of `calculatePageOffsets`: `offset += size` then
`fillPages(processed)`. -/
def skipContent (pageSize : Nat) (st : CState) (size : Nat) : CState :=
  fillPages pageSize { st with offset := st.offset + size } st.processed

/-- One iteration of the slot loop in `calculatePageOffsets`:
`fillPages(slot.position)` followed by `skipContent(size)` with the
viewport-dependent occupied-cell count. -/
def processSlot (pageSize : Nat) (isMobile : Bool) (st : CState) (slot : Slot) :
    CState :=
  skipContent pageSize (fillPages pageSize st slot.position)
    (slotSizeCalc isMobile slot)

/-- `calculatePageOffsets(pageSize, totalCount, ampSlots, isMobile)` of
`src/app/pages/product-list/index.jsx` (lines 102-144).  `ampSlots` is
optional (`if (ampSlots)` guards the loop; a missing list behaves exactly
like an empty one).  Faithful for `pageSize > 0`; with `pageSize = 0` the
JavaScript `while` loop would not terminate. -/
def calculatePageOffsets (pageSize totalCount : Nat)
    (ampSlots : Option (List Slot)) (isMobile : Bool) : List Int :=
  let st := (ampSlots.getD []).foldl (processSlot pageSize isMobile)
    ⟨[], 0, 0⟩
  (fillPages pageSize st totalCount).pages

/-- Sum of the occupied-cell counts of a slot list, with the
`calculatePageOffsets` size formula (the "total reserved cells" of the
spec). -/
def totalReservedCalc (isMobile : Bool) (slots : List Slot) : Nat :=
  (slots.map (slotSizeCalc isMobile)).sum

/-- A product search result as consumed by `enrichResults`: the ordered hit
records of the fetched page, the fetch offset and the total item count. -/
structure SearchResult (α : Type) where
  hits : List α
  offset : Nat
  total : Nat
deriving DecidableEq, Repr

/-- An element of the enriched sequence produced by `enrichResults`: either
a product hit or a placed CMS slot. -/
inductive Entry (α : Type) where
  | product : α → Entry α
  | content : Slot → Entry α
deriving DecidableEq, Repr

/-- `Array.prototype.slice(0, e)` element count: a negative end index counts
from the end of the array, clamped at `0`. -/
def sliceCount (len : Nat) (e : Int) : Nat :=
  if e < 0 then ((len : Int) + e).toNat else e.toNat

/-- `hits.slice(0, e)` of JavaScript. -/
def jsSlice {α : Type} (l : List α) (e : Int) : List α :=
  l.take (sliceCount l.length e)

/-- `Array.prototype.splice(start, ...)` start-index normalisation: negative
indices count from the end (clamped at `0`), indices past the end are
clamped to the length. -/
def spliceIdx (len : Nat) (idx : Int) : Nat :=
  if idx < 0 then ((len : Int) + idx).toNat else min idx.toNat len

/-- `items.splice(idx, 0, x)` of JavaScript: insert `x` at the (normalised)
index `idx`. -/
def jsSpliceInsert {α : Type} (l : List α) (idx : Int) (x : α) : List α :=
  l.insertIdx (spliceIdx l.length idx) x

/-- `Array.prototype.findIndex` with a running index accumulator. -/
def jsFindIndexFrom (f : Int → Bool) : List Int → Nat → Int
  | [], _ => -1
  | x :: xs, k => if f x then (k : Int) else jsFindIndexFrom f xs (k + 1)

/-- `pages.findIndex(f)` of JavaScript (`-1` when no element matches). -/
def jsFindIndex (f : Int → Bool) (l : List Int) : Int :=
  jsFindIndexFrom f l 0

/-- The page-id computation of `enrichResults` (lines 151-154):
`pages.findIndex((pageIndex) => pageIndex > offset) - 1`, with the `-2`
no-match case redirected to the last page. -/
def pageIdOf (pages : List Int) (offset : Nat) : Int :=
  let pageId := jsFindIndex (fun x => decide ((offset : Int) < x)) pages - 1
  if pageId = -2 then (pages.length : Int) - 1 else pageId

/-- The slot loop of `enrichResults` (lines 163-184), with the in-place
`slot.isAmplience = true` mutation rendered by returning the updated slot
list.  The `continue` branch keeps the slot untouched, the `break` branch
stops and leaves the remaining slots untouched, the placement branch marks
the slot, splices it into `items` at `position - pageBase - reservedSpaces`
and grows `reservedSpaces` by `size - 1` (`reservedSpaces` is `Int`: a
zero-sized slot drives it negative in JavaScript as well). -/
def enrichLoop {α : Type} (pageBase pageSize : Nat) (isMobile : Bool) :
    List Slot → List (Entry α) → Int → List (Entry α) × List Slot
  | [], items, _ => (items, [])
  | slot :: rest, items, reservedSpaces =>
    if slot.position < pageBase then
      let r := enrichLoop pageBase pageSize isMobile rest items reservedSpaces
      (r.1, slot :: r.2)
    else if pageBase + pageSize ≤ slot.position then
      (items, slot :: rest)
    else
      let size : Int := (slotSizeEnrich isMobile slot : Int)
      let slot2 := { slot with isAmplience := true }
      let items2 := jsSpliceInsert items
        ((slot.position : Int) - (pageBase : Int) - reservedSpaces)
        (Entry.content slot2)
      let r := enrichLoop pageBase pageSize isMobile rest items2
        (reservedSpaces + size - 1)
      (r.1, slot2 :: r.2)

/-- `enrichResults(productSearchResults, pageSize, ampSlots, pages, isMobile)`
of `src/app/pages/product-list/index.jsx` (lines 146-190).  Returns the
enriched sequence (`none` when the search result or its hits are absent,
mirroring the `productSearchResults?.hits` fallthrough) together with the
slot list as left by the call (the source mutates `ampSlots` in place).
The out-of-range page-table reads (`pages[pageId + 1] ?? total` and
`pages[pageId]`) are rendered with `List.getD`; the `pages[pageId]` default
is never reached on a non-empty table, and every table produced by
`calculatePageOffsets` starts with `0 ≤ offset`, making `pageIdOf`
non-negative, so `Int.toNat` is exact. -/
def enrichResults {α : Type} (productSearchResults : Option (SearchResult α))
    (pageSize : Nat) (ampSlots : Option (List Slot)) (pages : List Int)
    (isMobile : Bool) : Option (List (Entry α)) × Option (List Slot) :=
  match productSearchResults with
  | none => (none, ampSlots)
  | some r =>
    let total := r.total
    let pageId : Int := pageIdOf pages r.offset
    let pid : Nat := pageId.toNat
    let pageBase : Nat := pid * pageSize
    let sfccCount : Int := pages.getD (pid + 1) (total : Int) - pages.getD pid 0
    let items : List (Entry α) := (jsSlice r.hits sfccCount).map Entry.product
    match ampSlots with
    | none => (some items, none)
    | some slots =>
      let r2 := enrichLoop pageBase pageSize isMobile slots items 0
      (some r2.1, some r2.2)

/-- A refinement value record as passed to `toggleFilter`; only its `value`
field is read. -/
structure RefinementValue where
  value : String
deriving DecidableEq, Repr

/-- A value stored under a refinement attribute in the URL search params:
either a single string or an array of strings (the source handles both via
`Array.isArray`). -/
inductive RefVal where
  | str : String → RefVal
  | arr : List String → RefVal
deriving DecidableEq, Repr

/-- A JavaScript-object read `m[k]` on the `refine` map. -/
def objGet (m : List (String × RefVal)) (k : String) : Option RefVal :=
  (m.find? (fun e => e.1 = k)).map (fun e => e.2)

/-- `delete m[k]` on the `refine` map: the key is removed, the order of the
remaining entries is preserved. -/
def objDelete (m : List (String × RefVal)) (k : String) :
    List (String × RefVal) :=
  m.filter (fun e => ¬ e.1 = k)

/-- `m[k] = v` on the `refine` map: an existing key keeps its place, a new
key is appended. -/
def objSet (m : List (String × RefVal)) (k : String) (v : RefVal) :
    List (String × RefVal) :=
  if (m.find? (fun e => e.1 = k)).isSome then
    m.map (fun e => if e.1 = k then (k, v) else e)
  else m ++ [(k, v)]

/-- The search-params state read and produced by `toggleFilter`: the
pagination `offset` (deleted by every toggle) and the `refine`
attribute-value map.  The other query fields (`limit`, `sort`, ...) are
neither read nor written by `toggleFilter` and are omitted. -/
structure ProductSearchParams where
  offset : Option Nat
  refine : List (String × RefVal)
deriving DecidableEq, Repr

/-- `toggleFilter(value, attributeId, selected, allowMultiple)` of
`src/app/pages/product-list/index.jsx` (lines 359-387).  The source builds
the updated params and navigates to the resulting URL; the navigation is
modelled by returning the params used to build it.  `'|'.split` of a string
value mirrors `attributeValue.split('|')`. -/
def toggleFilter (searchParams : ProductSearchParams)
    (value : RefinementValue) (attributeId : String) (selected : Bool)
    (allowMultiple : Bool) : ProductSearchParams :=
  if ¬ allowMultiple then
    let refine1 := objDelete searchParams.refine attributeId
    let refine2 :=
      if ¬ selected then objSet refine1 attributeId (RefVal.str value.value)
      else refine1
    { offset := none, refine := refine2 }
  else
    let attributeValue := (objGet searchParams.refine attributeId).getD
      (RefVal.arr [])
    let values := match attributeValue with
      | RefVal.arr a => a
      | RefVal.str s => s.split (fun c => c = Char.ofNat 124)
    let values2 :=
      if ¬ selected then values ++ [value.value]
      else values.filter (fun v => ¬ v = value.value)
    let refine1 := objSet searchParams.refine attributeId (RefVal.arr values2)
    let refine2 :=
      if values2.length = 0 then objDelete refine1 attributeId else refine1
    { offset := none, refine := refine2 }

/-- The external calls issued by the CLI `import` command handler
(`dc-cli configure` followed by the six import steps), in source order. -/
inductive ImportStep where
  | configure
  | settings
  | schemas
  | contentTypes
  | contentItems
  | slotsStep
  | eventsStep
deriving DecidableEq, Repr

/-- The fixed call sequence of the `import` command handler. -/
def importSequence : List ImportStep :=
  [ImportStep.configure, ImportStep.settings, ImportStep.schemas,
    ImportStep.contentTypes, ImportStep.contentItems, ImportStep.slotsStep,
    ImportStep.eventsStep]

/-- Sequential execution of `execSync` calls: `exec` gives the exit status
of the external process for each step; a non-zero status makes `execSync`
throw, which aborts the remaining calls.  Returns the list of steps that
were actually run, in order, and the step whose failure ended the run (if
any). -/
def runStepsAux (exec : ImportStep → Nat) :
    List ImportStep → List ImportStep × Option ImportStep
  | [] => ([], none)
  | s :: rest =>
    if exec s = 0 then
      let r := runStepsAux exec rest
      (s :: r.1, r.2)
    else ([s], some s)

/-- The CLI `import` command handler (`src/unnamed/part_000`, lines 73-96):
runs `importSequence` sequentially under the given external exit
behaviour. -/
def runImport (exec : ImportStep → Nat) :
    List ImportStep × Option ImportStep :=
  runStepsAux exec importSequence

/-- The data of a slot that `calculatePageOffsets` reads: position, row span
and column span (the `isAmplience` marker is never read there). -/
def slotShape (s : Slot) : Nat × Nat × Nat := (s.position, s.rows, s.cols)

/-- Invariant of the `calculatePageOffsets` state maintained while all slots
occupy a single cell: the table built so far is non-decreasing, its length
tracks the current page number exactly and its last entry does not exceed
the `processed` cursor. -/
def StInv (p : Nat) (st : CState) : Prop :=
  List.Chain' (· ≤ ·) st.pages ∧
  st.pages.length = (st.processed + st.offset) / p + 1 ∧
  ∀ v ∈ st.pages.getLast?, v ≤ (st.processed : Int)

/-! ## Helper lemmas -/

theorem fillPages_offset (p : Nat) (st : CState) (u : Nat) :
    (fillPages p st u).offset = st.offset := rfl

theorem fillPages_processed (p : Nat) (st : CState) (u : Nat) :
    (fillPages p st u).processed = u := rfl

theorem fillPages_length (p : Nat) (st : CState) (u : Nat) :
    (fillPages p st u).pages.length =
      max st.pages.length ((u + st.offset) / p + 1) := by
  rw [fillPages]
  rw [List.length_append, List.length_map, List.length_range]
  omega

theorem processSlot_offset (p : Nat) (m : Bool) (st : CState) (s : Slot) :
    (processSlot p m st s).offset = st.offset + slotSizeCalc m s := rfl

theorem foldl_processSlot_offset (p : Nat) (m : Bool) :
    ∀ (slots : List Slot) (st : CState),
      (slots.foldl (processSlot p m) st).offset =
        st.offset + totalReservedCalc m slots
  | [], st => by simp [totalReservedCalc]
  | s :: rest, st => by
    rw [List.foldl_cons, foldl_processSlot_offset p m rest]
    simp [processSlot_offset, totalReservedCalc, Nat.add_assoc]

theorem processSlot_shape_congr (p : Nat) (m : Bool) (st : CState)
    (s₁ s₂ : Slot) (h : slotShape s₁ = slotShape s₂) :
    processSlot p m st s₁ = processSlot p m st s₂ := by
  have h1 : s₁.position = s₂.position := congrArg Prod.fst h
  have h2 : s₁.rows = s₂.rows := congrArg (fun x => x.2.1) h
  have h3 : s₁.cols = s₂.cols := congrArg (fun x => x.2.2) h
  simp [processSlot, slotSizeCalc, h1, h2, h3]

theorem foldl_processSlot_shape_congr (p : Nat) (m : Bool) :
    ∀ (l₁ l₂ : List Slot) (st : CState),
      l₁.map slotShape = l₂.map slotShape →
      l₁.foldl (processSlot p m) st = l₂.foldl (processSlot p m) st
  | [], [], _, _ => rfl
  | [], _ :: _, _, h => by simp at h
  | _ :: _, [], _, h => by simp at h
  | a :: l₁, b :: l₂, st, h => by
    rw [List.map_cons, List.map_cons, List.cons.injEq] at h
    rw [List.foldl_cons, List.foldl_cons,
      processSlot_shape_congr p m st a b h.1,
      foldl_processSlot_shape_congr p m l₁ l₂ _ h.2]

/-! ## C8: on mobile every slot occupies exactly one cell -/

/-- C8: when the mobile flag is `true`, the occupied-cell count used by
`calculatePageOffsets` (line 135) and the one used by `enrichResults`
(line 176) both equal exactly `1`, for all configured `rows` and `cols` of
the slot. -/
theorem c8_mobile_slot_occupies_one_cell (slot : Slot) :
    slotSizeCalc true slot = 1 ∧ slotSizeEnrich true slot = 1 :=
  ⟨rfl, rfl⟩

/-! ## C2: offset shift contributed by one slot -/

/-- C2 counterexample: processing a desktop slot with `rows = 2`, `cols = 1`
(occupied-cell count `2`) from the initial state increases the accumulated
offset shift by `2`, not by the occupied-cell count minus one (`1`) as the
claim states. -/
theorem c2_counterexample :
    (processSlot 3 false ⟨[], 0, 0⟩ ⟨0, 2, 1, false⟩).offset = 2 ∧
    slotSizeCalc false ⟨0, 2, 1, false⟩ - 1 = 1 :=
  ⟨rfl, rfl⟩

/-- C2 amended: processing one slot (after filling page boundaries up to its
position) increases the accumulated offset shift of `calculatePageOffsets`
by the slot's full occupied-cell count, for every state and slot. -/
theorem c2_offset_shift_full_size (p : Nat) (m : Bool) (st : CState)
    (s : Slot) :
    (processSlot p m st s).offset = st.offset + slotSizeCalc m s :=
  processSlot_offset p m st s

/-! ## C9: determinism of the page-offset computation -/

/-- C9: the output of `calculatePageOffsets` depends on nothing but the page
size, the total count, the slots' positions and spans, and the viewport
flag: two calls whose arguments agree on these (in particular two calls on
identical inputs, or a recomputation after `enrichResults` has set
`isAmplience` markers on the slot list) return identical tables. -/
theorem c9_deterministic (p₁ p₂ t₁ t₂ : Nat)
    (a₁ a₂ : Option (List Slot)) (m₁ m₂ : Bool)
    (hp : p₁ = p₂) (ht : t₁ = t₂) (hm : m₁ = m₂)
    (ha : a₁.map (List.map slotShape) = a₂.map (List.map slotShape)) :
    calculatePageOffsets p₁ t₁ a₁ m₁ = calculatePageOffsets p₂ t₂ a₂ m₂ := by
  subst hp; subst ht; subst hm
  have hlists : (a₁.getD []).map slotShape = (a₂.getD []).map slotShape := by
    cases a₁ <;> cases a₂ <;> simp_all
  rw [calculatePageOffsets, calculatePageOffsets,
    foldl_processSlot_shape_congr p₁ m₁ (a₁.getD []) (a₂.getD []) _ hlists]

/-- C9 witness: recomputing the table after the `isAmplience` marker has
been flipped on a slot yields the same table. -/
theorem c9_deterministic_witness :
    calculatePageOffsets 3 7 (some [⟨0, 1, 1, false⟩]) false =
      calculatePageOffsets 3 7 (some [⟨0, 1, 1, true⟩]) false :=
  c9_deterministic 3 3 7 7 (some [⟨0, 1, 1, false⟩])
    (some [⟨0, 1, 1, true⟩]) false false rfl rfl rfl (by decide)

/-! ## C5: CLI import order and abort-on-failure -/

theorem runStepsAux_fail (exec : ImportStep → Nat) :
    ∀ (l : List ImportStep) (k : Nat) (hk : k < l.length),
      (∀ j (hj : j < l.length), j < k → exec (l.get ⟨j, hj⟩) = 0) →
      exec (l.get ⟨k, hk⟩) ≠ 0 →
      runStepsAux exec l = (l.take (k + 1), some (l.get ⟨k, hk⟩))
  | [], k, hk, _, _ => absurd hk (by simp)
  | s :: rest, 0, _, _, hfail => by
    simp only [List.get] at hfail
    simp [runStepsAux, hfail]
  | s :: rest, k + 1, hk, hprev, hfail => by
    have hs : exec s = 0 := hprev 0 (by simp) (Nat.succ_pos k)
    have hk2 : k < rest.length := by simpa using hk
    have ih := runStepsAux_fail exec rest k hk2
      (fun j hj hjk => hprev (j + 1) (by simpa using hj)
        (Nat.succ_lt_succ hjk)) (by simpa using hfail)
    simp [runStepsAux, hs, ih, List.take_succ_cons]

/-- C5: the CLI `import` command issues its external calls in the fixed
source order (`configure`, then the import steps `settings`, `schemas`,
`content types`, `content items`, `slots`, `events`), sequentially; if the
external call of step `k` exits non-zero while all earlier steps succeeded,
exactly the first `k + 1` steps of the sequence have run, the run ends with
that step's failure, and no later step is ever executed. -/
theorem c5_import_order_and_abort (exec : ImportStep → Nat) (k : Nat)
    (hk : k < importSequence.length)
    (hprev : ∀ j (hj : j < importSequence.length), j < k →
      exec (importSequence.get ⟨j, hj⟩) = 0)
    (hfail : exec (importSequence.get ⟨k, hk⟩) ≠ 0) :
    (runImport exec).1 = importSequence.take (k + 1) ∧
    (runImport exec).2 = some (importSequence.get ⟨k, hk⟩) ∧
    ∀ j (hj : j < importSequence.length), k < j →
      importSequence.get ⟨j, hj⟩ ∉ (runImport exec).1 := by
  have hrun := runStepsAux_fail exec importSequence k hk hprev hfail
  rw [runImport, hrun]
  refine ⟨rfl, rfl, ?_⟩
  intro j hj hkj hmem
  obtain ⟨i, hi, hget⟩ := List.getElem_of_mem hmem
  have hil : i < importSequence.length := by
    have := hi
    simp [List.length_take] at this
    omega
  rw [List.getElem_take] at hget
  have hnodup : importSequence.Nodup := by decide
  have : i = j := (hnodup.getElem_inj_iff).mp (by simpa using hget)
  have hik : i < k + 1 := by
    have := hi
    simp [List.length_take] at this
    omega
  omega

/-- C5 witness: with the `content types` import exiting non-zero (and the
earlier calls succeeding), exactly `configure`, `settings`, `schemas` and
`content types` run, the run fails at `content types`, and none of the
later steps (`content items`, `slots`, `events`) is executed. -/
theorem c5_import_order_and_abort_witness :
    (runImport (fun s => if s = ImportStep.contentTypes then 2 else 0)).1 =
        importSequence.take 4 ∧
    (runImport (fun s => if s = ImportStep.contentTypes then 2 else 0)).2 =
        some (importSequence.get ⟨3, by decide⟩) ∧
    ∀ j (hj : j < importSequence.length), 3 < j →
      importSequence.get ⟨j, hj⟩ ∉
        (runImport (fun s => if s = ImportStep.contentTypes then 2 else 0)).1 :=
  c5_import_order_and_abort (fun s => if s = ImportStep.contentTypes then 2 else 0)
    3 (by decide) (by decide) (by decide)

/-! ## C6: single-select toggle replaces / removes the refinement value -/

theorem find_objDelete_none (k : String) :
    ∀ m : List (String × RefVal),
      (objDelete m k).find? (fun e => e.1 = k) = none
  | [] => rfl
  | (a, v) :: rest => by
    have ih := find_objDelete_none k rest
    by_cases hak : a = k
    · simp only [objDelete, List.filter_cons, hak] at ih ⊢
      simp [ih]
    · simp only [objDelete, List.filter_cons] at ih ⊢
      simp [hak, List.find?_cons, ih]

theorem objGet_of_find_none (k : String) (v : RefVal) :
    ∀ m : List (String × RefVal),
      m.find? (fun e => e.1 = k) = none →
      objGet (m ++ [(k, v)]) k = some v
  | [], _ => by simp [objGet, List.find?_cons]
  | (a, w) :: rest, h => by
    rw [List.find?_cons] at h
    by_cases hak : a = k
    · simp [hak] at h
    · have ih := objGet_of_find_none k v rest (by simpa [hak] using h)
      simpa [objGet, List.find?_cons, hak] using ih

theorem objGet_objDelete_self (m : List (String × RefVal)) (k : String) :
    objGet (objDelete m k) k = none := by
  rw [objGet, find_objDelete_none k m]
  rfl

theorem objGet_objSet_after_delete (m : List (String × RefVal)) (k : String)
    (v : RefVal) : objGet (objSet (objDelete m k) k v) k = some v := by
  rw [objSet, if_neg (by rw [find_objDelete_none k m]; simp)]
  exact objGet_of_find_none k v _ (find_objDelete_none k m)

/-- C6: on a search-params state whose `refine` map already holds a value
for the attribute, `toggleFilter` with `allowMultiple = false` and
`selected = false` leaves the attribute bound to exactly the new single
value (the old one is deleted first, never appended to), and with
`selected = true` it removes the attribute entirely. -/
theorem c6_single_select_toggle (sp : ProductSearchParams)
    (value : RefinementValue) (attributeId : String) (v : RefVal)
    (_hheld : objGet sp.refine attributeId = some v) :
    objGet (toggleFilter sp value attributeId false false).refine
        attributeId = some (RefVal.str value.value) ∧
    objGet (toggleFilter sp value attributeId true false).refine
        attributeId = none := by
  constructor
  · rw [toggleFilter]
    simp only [Bool.not_false, if_true, if_pos]
    exact objGet_objSet_after_delete sp.refine attributeId
      (RefVal.str value.value)
  · rw [toggleFilter]
    simp only [Bool.not_true, if_true, if_neg]
    exact objGet_objDelete_self sp.refine attributeId

/-- C6 witness: toggling attribute `cgid` that currently holds `"skirts"`
with a new value `"dresses"` replaces it; toggling it as selected removes
it. -/
theorem c6_single_select_toggle_witness :
    objGet (toggleFilter ⟨some 6, [(String.mk [Char.ofNat 99],
          RefVal.str (String.mk [Char.ofNat 115]))]⟩
        ⟨String.mk [Char.ofNat 100]⟩ (String.mk [Char.ofNat 99])
        false false).refine (String.mk [Char.ofNat 99]) =
      some (RefVal.str (String.mk [Char.ofNat 100])) ∧
    objGet (toggleFilter ⟨some 6, [(String.mk [Char.ofNat 99],
          RefVal.str (String.mk [Char.ofNat 115]))]⟩
        ⟨String.mk [Char.ofNat 100]⟩ (String.mk [Char.ofNat 99])
        true false).refine (String.mk [Char.ofNat 99]) = none :=
  c6_single_select_toggle
    ⟨some 6, [(String.mk [Char.ofNat 99],
      RefVal.str (String.mk [Char.ofNat 115]))]⟩
    ⟨String.mk [Char.ofNat 100]⟩ (String.mk [Char.ofNat 99])
    (RefVal.str (String.mk [Char.ofNat 115])) (by decide)

/-! ## C4: enrichment with no slots returns the hits unchanged -/

theorem jsFindIndexFrom_none (f : Int → Bool) :
    ∀ (l : List Int) (k : Nat), (∀ x ∈ l, f x = false) →
      jsFindIndexFrom f l k = -1
  | [], _, _ => rfl
  | x :: xs, k, h => by
    rw [jsFindIndexFrom, if_neg (by simp [h x (by simp)])]
    exact jsFindIndexFrom_none f xs (k + 1) (fun y hy => h y (by simp [hy]))

theorem jsFindIndexFrom_first_true (f : Int → Bool) :
    ∀ (l : List Int) (j k : Nat) (hj : j < l.length),
      (∀ i (hi : i < l.length), i < j → f (l.get ⟨i, hi⟩) = false) →
      f (l.get ⟨j, hj⟩) = true →
      jsFindIndexFrom f l k = (k : Int) + j
  | [], j, _, hj, _, _ => absurd hj (by simp)
  | x :: xs, 0, k, _, _, ht => by
    simp only [List.get] at ht
    rw [jsFindIndexFrom, if_pos ht]
    simp
  | x :: xs, j + 1, k, hj, hf, ht => by
    have hx : f x = false := hf 0 (by simp) (Nat.succ_pos j)
    rw [jsFindIndexFrom, if_neg (by simp [hx]),
      jsFindIndexFrom_first_true f xs j (k + 1) (by simpa using hj)
        (fun i hi hij => hf (i + 1) (by simpa using hi)
          (by omega))
        (by simpa using ht)]
    push_cast
    ring

theorem calc_empty_slots (p t : Nat) (m : Bool)
    (ampSlots : Option (List Slot))
    (hempty : ampSlots = none ∨ ampSlots = some []) :
    calculatePageOffsets p t ampSlots m =
      (List.range (t / p + 1)).map (fun k => ((k * p : Nat) : Int)) := by
  rcases hempty with h | h <;> subst h <;>
    simp [calculatePageOffsets, fillPages]

theorem getD_uniform_table (p n i : Nat) (d : Int) :
    ((List.range n).map (fun k => ((k * p : Nat) : Int))).getD i d =
      if i < n then ((i * p : Nat) : Int) else d := by
  rw [List.getD_eq_getElem?_getD]
  by_cases hi : i < n
  · rw [List.getElem?_map, List.getElem?_range hi]
    simp [hi]
  · rw [List.getElem?_eq_none (by simpa using hi)]
    simp [hi]

theorem pageId_uniform_table (p o t : Nat) (hp : 0 < p) :
    pageIdOf ((List.range (t / p + 1)).map (fun k => ((k * p : Nat) : Int)))
        o = ((min (o / p) (t / p) : Nat) : Int) := by
  have hfalse : ∀ k, k ≤ o / p →
      (decide ((o : Int) < ((k * p : Nat) : Int))) = false := by
    intro k hk
    have h1 : k * p ≤ (o / p) * p := Nat.mul_le_mul_right p hk
    have h2 : (o / p) * p ≤ o := Nat.div_mul_le_self o p
    simp only [decide_eq_false_iff_not, not_lt]
    exact_mod_cast Nat.le_trans h1 h2
  have hget : ∀ i (hi : i <
      ((List.range (t / p + 1)).map
        (fun k => ((k * p : Nat) : Int))).length),
      ((List.range (t / p + 1)).map
        (fun k => ((k * p : Nat) : Int))).get ⟨i, hi⟩ = ((i * p : Nat) : Int) := by
    intro i hi
    simp

  by_cases hqT : o / p < t / p
  · rw [pageIdOf, jsFindIndex,
      jsFindIndexFrom_first_true _ _ (o / p + 1) 0
        (by
          simp only [List.length_map, List.length_range]
          omega)
        (by
          intro i hi hij
          rw [hget i hi]
          exact hfalse i (by omega))
        (by
          rw [hget]
          have h3 : o < (o / p + 1) * p :=
            (Nat.div_lt_iff_lt_mul hp).mp (Nat.lt_succ_self (o / p))
          simp only [decide_eq_true_eq]
          exact_mod_cast h3)]
    rw [if_neg]
    · rw [min_eq_left (le_of_lt hqT)]
      push_cast
      ring
    · intro h
      have hx : (0 : Int) ≤ ((o / p : Nat) : Int) := Int.natCast_nonneg _
      push_cast at h hx
      linarith
  · rw [pageIdOf, jsFindIndex,
      jsFindIndexFrom_none _ _ 0
        (by
          intro x hx
          obtain ⟨k, hk, rfl⟩ := List.mem_map.mp hx
          exact hfalse k (by
            have := List.mem_range.mp hk
            omega))]
    rw [if_pos (by omega)]
    simp only [List.length_map, List.length_range]
    rw [min_eq_right (by omega : t / p ≤ o / p)]
    push_cast
    ring

/-- C4: with an empty (or absent) slot list, `enrichResults` applied to a
product search result that is coherent with the given page size and total
(at most a page of hits, fitting inside the total) and to the page-offset
table computed from the same page size and total returns exactly the
product hits, unchanged and in their original order. -/
theorem c4_no_slots_returns_hits_unchanged {α : Type} (hits : List α)
    (o t p : Nat) (m : Bool) (ampSlots : Option (List Slot)) (hp : 0 < p)
    (hempty : ampSlots = none ∨ ampSlots = some [])
    (hlen : hits.length ≤ p) (hfit : o + hits.length ≤ t) :
    (enrichResults (some ⟨hits, o, t⟩) p ampSlots
        (calculatePageOffsets p t ampSlots m) m).1 =
      some (hits.map Entry.product) := by
  rw [calc_empty_slots p t m ampSlots hempty]
  have hq : (o / p) * p ≤ o := Nat.div_mul_le_self o p
  have hT : (t / p) * p ≤ t := Nat.div_mul_le_self t p
  have htake : jsSlice hits
      (((List.range (t / p + 1)).map (fun k => ((k * p : Nat) : Int))).getD
          ((pageIdOf ((List.range (t / p + 1)).map
              (fun k => ((k * p : Nat) : Int))) o).toNat + 1) (t : Int) -
        ((List.range (t / p + 1)).map (fun k => ((k * p : Nat) : Int))).getD
          (pageIdOf ((List.range (t / p + 1)).map
              (fun k => ((k * p : Nat) : Int))) o).toNat 0) = hits := by
    rw [pageId_uniform_table p o t hp]
    by_cases hqT : o / p < t / p
    · have hmin : min (o / p) (t / p) = o / p := by omega
      rw [hmin]
      rw [Int.toNat_natCast, getD_uniform_table, getD_uniform_table,
        if_pos (by omega), if_pos (by omega)]
      have hcount : (((o / p + 1) * p : Nat) : Int) -
          (((o / p) * p : Nat) : Int) = (p : Int) := by
        push_cast
        ring
      rw [hcount, jsSlice, sliceCount, if_neg (by omega),
        Int.toNat_natCast]
      exact List.take_of_length_le hlen
    · have hmin : min (o / p) (t / p) = t / p := by omega
      rw [hmin]
      rw [Int.toNat_natCast, getD_uniform_table, getD_uniform_table,
        if_neg (by omega), if_pos (by omega)]
      have hTq : (t / p) * p ≤ (o / p) * p :=
        Nat.mul_le_mul_right p (by omega)
      rw [jsSlice, sliceCount, if_neg (by omega), Int.toNat_sub]
      exact List.take_of_length_le (by omega)
  rcases hempty with h | h <;> subst h
  · rw [enrichResults]
    rw [htake]
  · rw [enrichResults]
    rw [htake]
    rfl

/-- C4 witness: a two-hit page (page size 3, offset 0, total 5) with an
absent slot list is returned unchanged. -/
theorem c4_no_slots_returns_hits_unchanged_witness :
    (enrichResults (some ⟨[10, 20], 0, 5⟩) 3 none
        (calculatePageOffsets 3 5 none true) true).1 =
      some (([10, 20] : List Nat).map Entry.product) :=
  c4_no_slots_returns_hits_unchanged [10, 20] 0 5 3 true none
    (by decide) (Or.inl rfl) (by decide) (by decide)

/-! ## C7: a position-0 slot heads the first enriched page -/

theorem head?_after_fillPages (p : Nat) (st : CState) (u : Nat) (a : Int)
    (h : st.pages.head? = some a) :
    (fillPages p st u).pages.head? = some a := by
  show (st.pages ++ _).head? = some a
  rw [List.head?_append, h]
  rfl

theorem head?_after_skipContent (p : Nat) (st : CState) (size : Nat)
    (a : Int) (h : st.pages.head? = some a) :
    (skipContent p st size).pages.head? = some a :=
  head?_after_fillPages p _ _ a h

theorem head?_after_processSlot (p : Nat) (m : Bool) (st : CState) (s : Slot)
    (a : Int) (h : st.pages.head? = some a) :
    (processSlot p m st s).pages.head? = some a :=
  head?_after_skipContent p _ _ a (head?_after_fillPages p st _ a h)

theorem head?_after_foldl (p : Nat) (m : Bool) :
    ∀ (slots : List Slot) (st : CState) (a : Int),
      st.pages.head? = some a →
      (slots.foldl (processSlot p m) st).pages.head? = some a
  | [], _, _, h => h
  | s :: rest, st, a, h =>
    head?_after_foldl p m rest _ a (head?_after_processSlot p m st s a h)

theorem fillPages_head?_of_empty (p : Nat) (u : Nat) :
    (fillPages p ⟨[], 0, 0⟩ u).pages.head? = some 0 := by
  have h : (fillPages p ⟨[], 0, 0⟩ u).pages =
      (List.range (u / p + 1)).map
        (fun i => (((0 + i) * p : Nat) : Int) - ((0 : Nat) : Int)) := rfl
  rw [h, List.range_succ_eq_map, List.map_cons]
  simp

theorem calc_head_zero (p t : Nat) (s0 : Slot) (rest : List Slot) (m : Bool) :
    (calculatePageOffsets p t (some (s0 :: rest)) m).head? = some 0 := by
  refine head?_after_fillPages p _ t 0 ?_
  show ((s0 :: rest).foldl (processSlot p m) ⟨[], 0, 0⟩).pages.head? = some 0
  rw [List.foldl_cons]
  refine head?_after_foldl p m rest _ 0 ?_
  exact head?_after_skipContent p _ _ 0 (fillPages_head?_of_empty p s0.position)

theorem pageId_toNat_zero (pages : List Int) (h0 : pages.head? = some 0)
    (h1 : ∀ v, pages[1]? = some v → 0 < v) :
    (pageIdOf pages 0).toNat = 0 := by
  obtain ⟨tail, rfl⟩ : ∃ tail, pages = 0 :: tail := by
    cases pages with
    | nil => simp at h0
    | cons x xs =>
      simp only [List.head?_cons, Option.some.injEq] at h0
      exact ⟨xs, by rw [h0]⟩
  have hfind : jsFindIndexFrom (fun x => decide (((0 : Nat) : Int) < x))
      (0 :: tail) 0 = jsFindIndexFrom (fun x => decide (((0 : Nat) : Int) < x))
      tail 1 := by
    rw [jsFindIndexFrom, if_neg (by simp)]
  cases tail with
  | nil =>
    have h2 : jsFindIndexFrom (fun x => decide (((0 : Nat) : Int) < x))
        ([] : List Int) 1 = -1 := rfl
    rw [pageIdOf, jsFindIndex, hfind, h2, if_pos (by omega)]
    rfl
  | cons v vs =>
    have hv : 0 < v := h1 v (by simp)
    have h2 : jsFindIndexFrom (fun x => decide (((0 : Nat) : Int) < x))
        (v :: vs) 1 = ((1 : Nat) : Int) := by
      rw [jsFindIndexFrom, if_pos (by simpa using hv)]
    rw [pageIdOf, jsFindIndex, hfind, h2, if_neg (by omega)]
    rfl

theorem enrichLoop_head {α : Type} (pb ps : Nat) (m : Bool) :
    ∀ (slots : List Slot) (items : List (Entry α)) (reserved : Int)
      (c : Slot) (l0 : List (Entry α)),
      items = Entry.content c :: l0 → c.isAmplience = true →
      ∃ c2 l2, (enrichLoop pb ps m slots items reserved).1 =
          Entry.content c2 :: l2 ∧ c2.isAmplience = true
  | [], items, _, c, l0, hitems, hc => ⟨c, l0, by rw [enrichLoop, hitems], hc⟩
  | s :: rest, items, reserved, c, l0, hitems, hc => by
    rw [enrichLoop]
    by_cases h1 : s.position < pb
    · rw [if_pos h1]
      exact enrichLoop_head pb ps m rest items reserved c l0 hitems hc
    · rw [if_neg h1]
      by_cases h2 : pb + ps ≤ s.position
      · rw [if_pos h2]
        exact ⟨c, l0, hitems, hc⟩
      · rw [if_neg h2]
        rcases hsp : spliceIdx items.length
            ((s.position : Int) - (pb : Int) - reserved) with _ | n
        · have hins : jsSpliceInsert items
              ((s.position : Int) - (pb : Int) - reserved)
              (Entry.content { s with isAmplience := true }) =
              Entry.content { s with isAmplience := true } :: items := by
            rw [jsSpliceInsert, hsp, List.insertIdx_zero]
          exact enrichLoop_head pb ps m rest _ _ _ _ hins rfl
        · have hins : jsSpliceInsert items
              ((s.position : Int) - (pb : Int) - reserved)
              (Entry.content { s with isAmplience := true }) =
              Entry.content c :: l0.insertIdx n
                (Entry.content { s with isAmplience := true }) := by
            rw [jsSpliceInsert, hsp, hitems, List.insertIdx_succ_cons]
          exact enrichLoop_head pb ps m rest _ _ _ _ hins hc

theorem enrichLoop_insert_head {α : Type} (pb ps : Nat) (m : Bool)
    (s0 : Slot) (rest : List Slot) (items : List (Entry α))
    (hpb : pb = 0) (h0 : s0.position = 0) (hps : 0 < ps) :
    ∃ c2 l2, (enrichLoop pb ps m (s0 :: rest) items 0).1 =
      Entry.content c2 :: l2 ∧ c2.isAmplience = true := by
  subst hpb
  rw [enrichLoop, if_neg (by omega), if_neg (by omega)]
  have hidx : spliceIdx items.length
      ((s0.position : Int) - ((0 : Nat) : Int) - 0) = 0 := by
    rw [h0, spliceIdx]
    simp
  have hins : jsSpliceInsert items
      ((s0.position : Int) - ((0 : Nat) : Int) - 0)
      (Entry.content { s0 with isAmplience := true }) =
      Entry.content { s0 with isAmplience := true } :: items := by
    rw [jsSpliceInsert, hidx, List.insertIdx_zero]
  exact enrichLoop_head 0 ps m rest _ _ _ _ hins rfl

theorem enrichResults_head_content {α : Type} (hits : List α)
    (o t ps : Nat) (m : Bool) (s0 : Slot) (rest : List Slot)
    (pages : List Int)
    (hpid0 : (pageIdOf pages o).toNat = 0) (h0 : s0.position = 0)
    (hps : 0 < ps) :
    ∃ c l, (enrichResults (some ⟨hits, o, t⟩) ps (some (s0 :: rest))
        pages m).1 = some (Entry.content c :: l) ∧ c.isAmplience = true := by
  obtain ⟨c2, l2, hr, hc2⟩ := enrichLoop_insert_head
    ((pageIdOf pages o).toNat * ps) ps m s0 rest
    ((jsSlice hits (pages.getD ((pageIdOf pages o).toNat + 1) (t : Int) -
        pages.getD (pageIdOf pages o).toNat 0)).map Entry.product)
    (by rw [hpid0, Nat.zero_mul]) h0 hps
  exact ⟨c2, l2, congrArg some hr, hc2⟩

/-- C7 counterexample: with page size 3, fetch offset 0 and a single
desktop slot at position 0 spanning `1 × 3 = 3` cells, the whole first page
is consumed by the slot, the first rendered page of hits is page 1, and the
enriched sequence starts with a product hit, not the slot. -/
theorem c7_counterexample :
    (enrichResults (some ⟨[10, 20, 30], 0, 3⟩) 3 (some [⟨0, 1, 3, false⟩])
        (calculatePageOffsets 3 3 (some [⟨0, 1, 3, false⟩]) false) false).1 =
      some [Entry.product 10, Entry.product 20, Entry.product 30] := by
  decide

/-- C7 amended: with page size 3 and fetch offset 0, a slot list sorted by
position containing a slot at position 0 makes `enrichResults` return a
sequence headed by a placed slot (`isAmplience` set) — the position-0 slot
itself unless a later same-page slot is spliced in front of it — provided
the second page-offset entry (if any) is positive, i.e. the first page
still renders at least one product; an oversized slot can consume all of
page 0, in which case fetch offset 0 renders a later page and no slot is
placed at all (see the counterexample). -/
theorem c7_position_zero_slot_heads_page {α : Type} (hits : List α)
    (t : Nat) (s0 : Slot) (rest : List Slot) (m : Bool)
    (hsorted : List.Pairwise (fun a b => a.position ≤ b.position)
      (s0 :: rest))
    (hzero : ∃ s ∈ s0 :: rest, s.position = 0)
    (hsecond : ∀ v,
      (calculatePageOffsets 3 t (some (s0 :: rest)) m)[1]? = some v →
      0 < v) :
    ∃ c l, (enrichResults (some ⟨hits, 0, t⟩) 3 (some (s0 :: rest))
        (calculatePageOffsets 3 t (some (s0 :: rest)) m) m).1 =
      some (Entry.content c :: l) ∧ c.isAmplience = true := by
  have hpos0 : s0.position = 0 := by
    obtain ⟨s, hs, hsp⟩ := hzero
    rcases List.mem_cons.mp hs with rfl | hs
    · exact hsp
    · have := (List.pairwise_cons.mp hsorted).1 s hs
      omega
  have hpid : (pageIdOf (calculatePageOffsets 3 t (some (s0 :: rest)) m)
      0).toNat = 0 :=
    pageId_toNat_zero _ (calc_head_zero 3 t s0 rest m) hsecond
  exact enrichResults_head_content hits 0 t 3 m s0 rest _ hpid hpos0
    (by omega)

/-- C7 witness: a single one-cell slot at position 0 on a mobile three-item
page heads the enriched sequence. -/
theorem c7_position_zero_slot_heads_page_witness :
    ∃ c l, (enrichResults (some ⟨[10, 20], 0, 3⟩) 3
        (some [⟨0, 1, 1, false⟩])
        (calculatePageOffsets 3 3 (some [⟨0, 1, 1, false⟩]) true) true).1 =
      some (Entry.content c :: l) ∧ c.isAmplience = true :=
  c7_position_zero_slot_heads_page [10, 20] 3 ⟨0, 1, 1, false⟩ [] true
    (by decide) ⟨⟨0, 1, 1, false⟩, by decide⟩
    (by decide)

/-! ## C1: length of the page-offset table -/

theorem foldl_processSlot_length_le (p t R : Nat) (m : Bool) :
    ∀ (slots : List Slot) (st : CState),
      (∀ s ∈ slots, s.position ≤ t) →
      st.offset + totalReservedCalc m slots ≤ R →
      st.pages.length ≤ (t + R) / p + 1 →
      (slots.foldl (processSlot p m) st).pages.length ≤ (t + R) / p + 1
  | [], _, _, _, hlen => hlen
  | s :: rest, st, hpos, hoff, hlen => by
    rw [List.foldl_cons]
    have hsum : totalReservedCalc m (s :: rest) =
        slotSizeCalc m s + totalReservedCalc m rest := by
      simp [totalReservedCalc]
    have hst : s.position ≤ t := hpos s (by simp)
    refine foldl_processSlot_length_le p t R m rest _
      (fun x hx => hpos x (by simp [hx])) ?_ ?_
    · rw [processSlot_offset]
      omega
    · have hA : (s.position + st.offset) / p + 1 ≤ (t + R) / p + 1 :=
        Nat.succ_le_succ (Nat.div_le_div_right (by omega))
      have hB : (s.position + (st.offset + slotSizeCalc m s)) / p + 1 ≤
          (t + R) / p + 1 :=
        Nat.succ_le_succ (Nat.div_le_div_right (by omega))
      have h2 : (processSlot p m st s).pages.length =
          max (max st.pages.length ((s.position + st.offset) / p + 1))
            ((s.position + (st.offset + slotSizeCalc m s)) / p + 1) := by
        rw [processSlot, skipContent]
        rw [fillPages_length]
        simp only [fillPages_processed, fillPages_offset]
        rw [fillPages_length]
      rw [h2]
      omega

/-- C1 counterexample: with page size 3, total 3 and no slots, the table is
`[0, 3]` (length 2), while `ceil((3 + 0) / 3) = 1`: the code appends a page
boundary even when the combined count divides the page size exactly. -/
theorem c1_counterexample :
    (calculatePageOffsets 3 3 (some []) false).length = 2 ∧
    (3 + totalReservedCalc false [] + 3 - 1) / 3 = 1 := by
  constructor
  · decide
  · decide

/-- C1 amended: for page size `p > 0` and a slot list whose positions do
not exceed the total count, the table length is
`floor((total + total reserved cells) / pageSize) + 1` — one more than the
floor, not the ceiling, of the combined count divided by the page size
(reserved cells: `cols * rows` on desktop, `1` on mobile). -/
theorem c1_offset_table_length (p t : Nat) (slots : List Slot) (m : Bool)
    (_hp : 0 < p) (hpos : ∀ s ∈ slots, s.position ≤ t) :
    (calculatePageOffsets p t (some slots) m).length =
      (t + totalReservedCalc m slots) / p + 1 := by
  have hoff : (slots.foldl (processSlot p m) ⟨[], 0, 0⟩).offset =
      totalReservedCalc m slots := by
    rw [foldl_processSlot_offset]
    simp
  have hlen : (slots.foldl (processSlot p m) ⟨[], 0, 0⟩).pages.length ≤
      (t + totalReservedCalc m slots) / p + 1 :=
    foldl_processSlot_length_le p t (totalReservedCalc m slots) m slots
      ⟨[], 0, 0⟩ hpos (by simp) (by simp)
  show (fillPages p (slots.foldl (processSlot p m) ⟨[], 0, 0⟩)
      t).pages.length = _
  rw [fillPages_length, hoff]
  omega

/-- C1 witness: page size 3, total 10, one desktop 2×2 slot at position 2:
the table has `(10 + 4) / 3 + 1 = 5` entries. -/
theorem c1_offset_table_length_witness :
    (calculatePageOffsets 3 10 (some [⟨2, 2, 2, false⟩]) false).length =
      (10 + totalReservedCalc false [⟨2, 2, 2, false⟩]) / 3 + 1 :=
  c1_offset_table_length 3 10 [⟨2, 2, 2, false⟩] false (by decide)
    (by decide)

/-! ## C10: enrichResults marks the in-page slots in the slot list -/

theorem enrichLoop_snd_length {α : Type} (pb ps : Nat) (m : Bool) :
    ∀ (slots : List Slot) (items : List (Entry α)) (reserved : Int),
      (enrichLoop pb ps m slots items reserved).2.length = slots.length
  | [], _, _ => rfl
  | s :: rest, items, reserved => by
    by_cases h1 : s.position < pb
    · simp only [enrichLoop, if_pos h1, List.length_cons]
      rw [enrichLoop_snd_length pb ps m rest items reserved]
    · by_cases h2 : pb + ps ≤ s.position
      · simp only [enrichLoop, if_neg h1, if_pos h2, List.length_cons]
      · simp only [enrichLoop, if_neg h1, if_neg h2, List.length_cons]
        rw [enrichLoop_snd_length pb ps m rest _ _]

theorem enrichLoop_snd_inrange {α : Type} (pb ps : Nat) (m : Bool) :
    ∀ (slots : List Slot) (items : List (Entry α)) (reserved : Int),
      List.Pairwise (fun a b => a.position ≤ b.position) slots →
      ∀ i (hi : i < slots.length),
        pb ≤ (slots.get ⟨i, hi⟩).position →
        (slots.get ⟨i, hi⟩).position < pb + ps →
        (enrichLoop pb ps m slots items reserved).2[i]? =
          some { slots.get ⟨i, hi⟩ with isAmplience := true }
  | [], _, _, _, i, hi, _, _ => absurd hi (by simp)
  | s :: rest, items, reserved, hsorted, i, hi, hlo, hhi => by
    have hpair := List.pairwise_cons.mp hsorted
    by_cases h1 : s.position < pb
    · cases i with
      | zero =>
        exfalso
        simp only [List.get] at hlo
        omega
      | succ n =>
        have hn : n < rest.length := by simpa using hi
        have hv := enrichLoop_snd_inrange pb ps m rest items reserved
          hpair.2 n hn (by simpa using hlo) (by simpa using hhi)
        rw [enrichLoop, if_pos h1]
        show (s :: (enrichLoop pb ps m rest items reserved).2)[n + 1]? = _
        rw [List.getElem?_cons_succ, hv]
        simp
    · by_cases h2 : pb + ps ≤ s.position
      · cases i with
        | zero =>
          exfalso
          simp only [List.get] at hhi
          omega
        | succ n =>
          exfalso
          have hn : n < rest.length := by simpa using hi
          have hmem : rest.get ⟨n, hn⟩ ∈ rest := List.get_mem rest n hn
          have hle := hpair.1 _ hmem
          have hhi2 : (rest.get ⟨n, hn⟩).position < pb + ps := by
            simpa using hhi
          omega
      · cases i with
        | zero =>
          rw [enrichLoop, if_neg h1, if_neg h2]
          simp
        | succ n =>
          have hn : n < rest.length := by simpa using hi
          have hv := enrichLoop_snd_inrange pb ps m rest
            (jsSpliceInsert items
              ((s.position : Int) - (pb : Int) - reserved)
              (Entry.content { s with isAmplience := true }))
            (reserved + ((slotSizeEnrich m s : Nat) : Int) - 1)
            hpair.2 n hn (by simpa using hlo) (by simpa using hhi)
          rw [enrichLoop, if_neg h1, if_neg h2]
          show ({ s with isAmplience := true } ::
            (enrichLoop pb ps m rest
              (jsSpliceInsert items
                ((s.position : Int) - (pb : Int) - reserved)
                (Entry.content { s with isAmplience := true }))
              (reserved + ((slotSizeEnrich m s : Nat) : Int) - 1)).2)[n + 1]? = _
          rw [List.getElem?_cons_succ, hv]
          simp

/-- C10: `enrichResults` does not leave its slot-list argument unchanged:
with a sorted slot list and a present search result, every slot whose
position falls within the current page's index range
(`pageBase ≤ position < pageBase + pageSize`) comes out of the call with
its `isAmplience` field set to `true` (the source mutates the input slot
objects in place; the embedding returns the updated list). -/
theorem c10_enrichResults_mutates_slots {α : Type} (hits : List α)
    (o t p : Nat) (m : Bool) (slots : List Slot) (pages : List Int)
    (updated : List Slot)
    (hsorted : List.Pairwise (fun a b => a.position ≤ b.position) slots)
    (hcall : (enrichResults (some ⟨hits, o, t⟩) p (some slots) pages m).2 =
      some updated) :
    ∀ i (hi : i < slots.length),
      (pageIdOf pages o).toNat * p ≤ (slots.get ⟨i, hi⟩).position →
      (slots.get ⟨i, hi⟩).position < (pageIdOf pages o).toNat * p + p →
      updated[i]? =
        some { slots.get ⟨i, hi⟩ with isAmplience := true } := by
  have h : some ((enrichLoop ((pageIdOf pages o).toNat * p) p m slots
      ((jsSlice hits (pages.getD ((pageIdOf pages o).toNat + 1) (t : Int) -
        pages.getD (pageIdOf pages o).toNat 0)).map Entry.product) 0).2) =
      some updated := hcall
  obtain rfl := Option.some.inj h
  exact fun i hi hlo hhi =>
    enrichLoop_snd_inrange ((pageIdOf pages o).toNat * p) p m slots _ 0
      hsorted i hi hlo hhi

/-- C10 witness: with page size 3, offset 0 and two desktop slots at
positions 0 and 1, the slot list comes back with `isAmplience` set on the
position-1 slot (it was `false` on the way in, so the list is changed). -/
theorem c10_enrichResults_mutates_slots_witness :
    (([⟨0, 2, 1, true⟩, ⟨1, 2, 2, true⟩] : List Slot))[1]? =
      some { ([⟨0, 2, 1, false⟩, ⟨1, 2, 2, false⟩] : List Slot).get
          ⟨1, by decide⟩ with isAmplience := true } :=
  c10_enrichResults_mutates_slots ([1, 2, 3] : List Nat) 0 3 3 false
    [⟨0, 2, 1, false⟩, ⟨1, 2, 2, false⟩]
    (calculatePageOffsets 3 3
      (some [⟨0, 2, 1, false⟩, ⟨1, 2, 2, false⟩]) false)
    [⟨0, 2, 1, true⟩, ⟨1, 2, 2, true⟩]
    (by decide) (by decide) 1 (by decide) (by decide) (by decide)

/-! ## C3: monotonicity of the page-offset table -/

theorem chain_le_map_range (n : Nat) :
    ∀ (f : Nat → Int), (∀ i, f i ≤ f (i + 1)) →
      List.Chain' (· ≤ ·) ((List.range n).map f) := by
  induction n with
  | zero =>
    intro f _
    simp
  | succ k ih =>
    intro f hf
    rw [List.range_succ_eq_map, List.map_cons, List.map_map]
    rw [List.chain'_cons']
    refine ⟨?_, ih (f ∘ Nat.succ) (fun i => hf (i + 1))⟩
    intro y hy
    cases k with
    | zero => simp at hy
    | succ k2 =>
      rw [List.range_succ_eq_map, List.map_cons] at hy
      simp only [List.head?_cons, Option.mem_def, Option.some.injEq,
        Function.comp] at hy
      rw [← hy]
      exact hf 0

theorem stInv_fillPages (p : Nat) (hp : 0 < p) (st : CState) (δ : Nat)
    (hδ : δ ≤ 1) (u : Nat) (hu : st.processed ≤ u) (hinv : StInv p st) :
    StInv p (fillPages p { st with offset := st.offset + δ } u) := by
  obtain ⟨hchain, hB, hC⟩ := hinv
  have hpages : (fillPages p { st with offset := st.offset + δ } u).pages =
      st.pages ++
        (List.range ((u + (st.offset + δ)) / p + 1 - st.pages.length)).map
          (fun i => (((st.pages.length + i) * p : Nat) : Int) -
            ((st.offset + δ : Nat) : Int)) := rfl
  have hproc : (fillPages p { st with offset := st.offset + δ } u).processed =
      u := rfl
  have hoff : (fillPages p { st with offset := st.offset + δ } u).offset =
      st.offset + δ := rfl
  obtain ⟨T, hT⟩ : ∃ T, (u + (st.offset + δ)) / p = T := ⟨_, rfl⟩
  rw [hT] at hpages
  have hdiv1 : (st.processed + st.offset) / p = st.pages.length - 1 := by
    rw [hB]
    exact (Nat.succ_sub_one _).symm
  have hmono : st.pages.length - 1 ≤ T := by
    rw [← hdiv1, ← hT]
    exact Nat.div_le_div_right (by omega)
  have hLone : 1 ≤ st.pages.length := by
    rw [hB]
    exact Nat.le_add_left 1 _
  have hbound : st.processed + st.offset < st.pages.length * p := by
    have h1 : (st.processed + st.offset) / p < st.pages.length := by
      rw [hdiv1]
      omega
    exact (Nat.div_lt_iff_lt_mul hp).mp h1
  by_cases hneed : T + 1 - st.pages.length = 0
  · refine ⟨?_, ?_, ?_⟩
    · rw [hpages, hneed]
      simpa using hchain
    · rw [hpages, hproc, hoff, hneed, hT]
      show (st.pages ++ []).length = T + 1
      rw [List.append_nil]
      omega
    · rw [hpages, hproc, hneed]
      intro v hv
      simp only [List.range_zero, List.map_nil, List.append_nil] at hv
      have h1 := hC v hv
      have h2 : ((st.processed : Nat) : Int) ≤ ((u : Nat) : Int) := by
        exact_mod_cast hu
      linarith
  · obtain ⟨n, hn⟩ : ∃ n, T + 1 - st.pages.length = n + 1 :=
      ⟨T - st.pages.length, by omega⟩
    have hseam : st.processed + (st.offset + δ) ≤ st.pages.length * p :=
      le_trans (by omega) hbound
    refine ⟨?_, ?_, ?_⟩
    · rw [hpages]
      refine List.Chain'.append hchain ?_ ?_
      · refine chain_le_map_range _ _ (fun i => ?_)
        have h1 : (st.pages.length + i) * p ≤
            (st.pages.length + i + 1) * p :=
          Nat.mul_le_mul_right p (by omega)
        exact sub_le_sub_right (by exact_mod_cast h1) _
      · intro x hx y hy
        have hxpr := hC x hx
        rw [hn, List.range_succ_eq_map, List.map_cons] at hy
        simp only [List.head?_cons, Option.mem_def, Option.some.injEq] at hy
        rw [← hy]
        show x ≤ ((st.pages.length * p : Nat) : Int) -
          ((st.offset + δ : Nat) : Int)
        have hcast : ((st.processed : Nat) : Int) +
            ((st.offset + δ : Nat) : Int) ≤
            ((st.pages.length * p : Nat) : Int) := by exact_mod_cast hseam
        linarith
    · rw [hpages, hproc, hoff, hT]
      show (st.pages ++ _).length = T + 1
      rw [List.length_append, List.length_map, List.length_range]
      omega
    · rw [hpages, hproc]
      intro v hv
      rw [hn, List.range_succ, List.map_append] at hv
      simp only [List.map_cons, List.map_nil] at hv
      rw [← List.append_assoc, List.getLast?_concat] at hv
      obtain rfl := (Option.some.inj (Option.mem_def.mp hv)).symm
      show (((st.pages.length + n) * p : Nat) : Int) -
          ((st.offset + δ : Nat) : Int) ≤ ((u : Nat) : Int)
      have hLnT : st.pages.length + n = T := by omega
      have hTp : T * p ≤ u + (st.offset + δ) := by
        rw [← hT]
        exact Nat.div_mul_le_self _ _
      have hcast : (((st.pages.length + n) * p : Nat) : Int) ≤
          ((u : Nat) : Int) + ((st.offset + δ : Nat) : Int) := by
        rw [hLnT]
        exact_mod_cast hTp
      linarith

theorem stInv_fillPages_empty (p : Nat) (_hp : 0 < p) (u : Nat) :
    StInv p (fillPages p ⟨[], 0, 0⟩ u) := by
  have hpages : (fillPages p ⟨[], 0, 0⟩ u).pages =
      (List.range (u / p + 1)).map
        (fun i => (((0 + i) * p : Nat) : Int) - ((0 : Nat) : Int)) := rfl
  refine ⟨?_, ?_, ?_⟩
  · rw [hpages]
    refine chain_le_map_range _ _ (fun i => ?_)
    have h1 : (0 + i) * p ≤ (0 + i + 1) * p := Nat.mul_le_mul_right p (by omega)
    exact sub_le_sub_right (by exact_mod_cast h1) _
  · rw [hpages]
    show _ = u / p + 1
    rw [List.length_map, List.length_range]
  · rw [hpages]
    intro v hv
    rw [List.range_succ, List.map_append] at hv
    simp only [List.map_cons, List.map_nil] at hv
    rw [List.getLast?_concat] at hv
    obtain rfl := (Option.some.inj (Option.mem_def.mp hv)).symm
    show (((0 + u / p) * p : Nat) : Int) - ((0 : Nat) : Int) ≤
      ((u : Nat) : Int)
    have hTp : (0 + u / p) * p ≤ u := by
      rw [Nat.zero_add]
      exact Nat.div_mul_le_self _ _
    have hcast : (((0 + u / p) * p : Nat) : Int) ≤ ((u : Nat) : Int) := by
      exact_mod_cast hTp
    simpa using hcast

theorem stInv_processSlot (p : Nat) (hp : 0 < p) (m : Bool) (st : CState)
    (s : Slot) (hsz : slotSizeCalc m s = 1) (hinv : StInv p st)
    (hu : st.processed ≤ s.position) :
    StInv p (processSlot p m st s) := by
  have h1 : StInv p (fillPages p st s.position) :=
    stInv_fillPages p hp st 0 (by omega) s.position hu hinv
  have h2 := stInv_fillPages p hp (fillPages p st s.position) 1 (le_refl 1)
    (fillPages p st s.position).processed (le_refl _) h1
  show StInv p (fillPages p
    { fillPages p st s.position with
        offset := (fillPages p st s.position).offset + slotSizeCalc m s }
    (fillPages p st s.position).processed)
  rw [hsz]
  exact h2

theorem stInv_foldl (p : Nat) (hp : 0 < p) (m : Bool) :
    ∀ (slots : List Slot) (st : CState),
      List.Pairwise (fun a b => a.position ≤ b.position) slots →
      (∀ s ∈ slots, slotSizeCalc m s = 1) →
      StInv p st →
      (∀ hd ∈ slots.head?, st.processed ≤ hd.position) →
      StInv p (slots.foldl (processSlot p m) st)
  | [], _, _, _, hinv, _ => hinv
  | s :: rest, st, hsort, hsz, hinv, hhd => by
    rw [List.foldl_cons]
    have hpair := List.pairwise_cons.mp hsort
    have h1 : StInv p (processSlot p m st s) :=
      stInv_processSlot p hp m st s (hsz s (by simp)) hinv (hhd s (by simp))
    refine stInv_foldl p hp m rest _ hpair.2
      (fun x hx => hsz x (by simp [hx])) h1 ?_
    intro hd hhd2
    have hproc : (processSlot p m st s).processed = s.position := rfl
    rw [hproc]
    exact hpair.1 hd (List.mem_of_mem_head? hhd2)

/-- C3 counterexample: with page size 3, total 3 and a single desktop 2×2
slot at position 0 (a sorted list), the table is `[0, -1, 2]`, which is not
monotonically non-decreasing. -/
theorem c3_counterexample :
    calculatePageOffsets 3 3 (some [⟨0, 2, 2, false⟩]) false = [0, -1, 2] ∧
    ¬ List.Chain' (· ≤ ·) ([0, -1, 2] : List Int) := by
  refine ⟨by decide, ?_⟩
  intro h
  rw [List.chain'_cons'] at h
  have := h.1 (-1) (by simp)
  omega

/-- C3 amended: the page-offset table is monotonically non-decreasing for
every page size `p > 0`, total count and slot list sorted by position,
whenever every slot occupies exactly one cell — in particular always on
mobile; on desktop a slot spanning several cells can push an offset below
an already-emitted boundary (see the counterexample). -/
theorem c3_offset_table_monotone (p t : Nat) (slots : List Slot) (m : Bool)
    (hp : 0 < p)
    (hsorted : List.Pairwise (fun a b => a.position ≤ b.position) slots)
    (hone : m = true ∨ ∀ s ∈ slots, slotSizeCalc m s = 1) :
    List.Chain' (· ≤ ·) (calculatePageOffsets p t (some slots) m) := by
  have hsz : ∀ s ∈ slots, slotSizeCalc m s = 1 := by
    rcases hone with h | h
    · intro s _
      rw [h]
      rfl
    · exact h
  cases slots with
  | nil =>
    obtain ⟨hc, -, -⟩ := stInv_fillPages_empty p hp t
    exact hc
  | cons s rest =>
    have hpair := List.pairwise_cons.mp hsorted
    have hfold : StInv p ((s :: rest).foldl (processSlot p m) ⟨[], 0, 0⟩) := by
      rw [List.foldl_cons]
      have h0 : StInv p (fillPages p ⟨[], 0, 0⟩ s.position) :=
        stInv_fillPages_empty p hp _
      have h2 := stInv_fillPages p hp (fillPages p ⟨[], 0, 0⟩ s.position) 1
        (le_refl 1) (fillPages p ⟨[], 0, 0⟩ s.position).processed
        (le_refl _) h0
      have h1 : StInv p (processSlot p m ⟨[], 0, 0⟩ s) := by
        show StInv p (fillPages p
          { fillPages p ⟨[], 0, 0⟩ s.position with
              offset := (fillPages p ⟨[], 0, 0⟩ s.position).offset +
                slotSizeCalc m s }
          (fillPages p ⟨[], 0, 0⟩ s.position).processed)
        rw [hsz s (by simp)]
        exact h2
      refine stInv_foldl p hp m rest _ hpair.2
        (fun x hx => hsz x (by simp [hx])) h1 ?_
      intro hd hhd
      have hproc : (processSlot p m ⟨[], 0, 0⟩ s).processed = s.position := rfl
      rw [hproc]
      exact hpair.1 hd (List.mem_of_mem_head? hhd)
    by_cases hfin :
        ((s :: rest).foldl (processSlot p m) ⟨[], 0, 0⟩).processed ≤ t
    · have h3 := stInv_fillPages p hp
        ((s :: rest).foldl (processSlot p m) ⟨[], 0, 0⟩) 0 (by omega) t
        hfin hfold
      obtain ⟨hc, -, -⟩ := h3
      exact hc
    · obtain ⟨hchain, hB, hC⟩ := hfold
      obtain ⟨T2, hT2⟩ : ∃ T2,
          (t + ((s :: rest).foldl (processSlot p m) ⟨[], 0, 0⟩).offset) / p =
            T2 := ⟨_, rfl⟩
      have hA : (((s :: rest).foldl (processSlot p m) ⟨[], 0, 0⟩).processed +
          ((s :: rest).foldl (processSlot p m) ⟨[], 0, 0⟩).offset) / p =
          ((s :: rest).foldl (processSlot p m) ⟨[], 0, 0⟩).pages.length -
            1 := by
        rw [hB]
        exact (Nat.succ_sub_one _).symm
      have hmono2 : T2 ≤
          ((s :: rest).foldl (processSlot p m) ⟨[], 0, 0⟩).pages.length -
            1 := by
        rw [← hT2, ← hA]
        exact Nat.div_le_div_right (by omega)
      have hLone2 : 1 ≤
          ((s :: rest).foldl (processSlot p m) ⟨[], 0, 0⟩).pages.length := by
        rw [hB]
        exact Nat.le_add_left 1 _
      have hneed : T2 + 1 -
          ((s :: rest).foldl (processSlot p m) ⟨[], 0, 0⟩).pages.length =
          0 := by omega
      have hpages2 : (fillPages p
          ((s :: rest).foldl (processSlot p m) ⟨[], 0, 0⟩) t).pages =
          ((s :: rest).foldl (processSlot p m) ⟨[], 0, 0⟩).pages := by
        show ((s :: rest).foldl (processSlot p m) ⟨[], 0, 0⟩).pages ++
          (List.range ((t +
            ((s :: rest).foldl (processSlot p m) ⟨[], 0, 0⟩).offset) / p +
              1 -
            ((s :: rest).foldl (processSlot p m)
              ⟨[], 0, 0⟩).pages.length)).map
            (fun i =>
              (((((s :: rest).foldl (processSlot p m)
                    ⟨[], 0, 0⟩).pages.length + i) * p : Nat) : Int) -
                ((((s :: rest).foldl (processSlot p m)
                    ⟨[], 0, 0⟩).offset : Nat) : Int)) =
          ((s :: rest).foldl (processSlot p m) ⟨[], 0, 0⟩).pages
        rw [hT2, hneed]
        simp
      show List.Chain' (· ≤ ·) (fillPages p
        ((s :: rest).foldl (processSlot p m) ⟨[], 0, 0⟩) t).pages
      rw [hpages2]
      exact hchain

/-- C3 witness: two sorted one-cell slots at positions 0 and 2 on a mobile
two-item page with total 5 yield a non-decreasing table. -/
theorem c3_offset_table_monotone_witness :
    List.Chain' (· ≤ ·) (calculatePageOffsets 2 5
      (some [⟨0, 1, 1, false⟩, ⟨2, 3, 3, false⟩]) true) :=
  c3_offset_table_monotone 2 5 [⟨0, 1, 1, false⟩, ⟨2, 3, 3, false⟩] true
    (by decide) (by decide) (Or.inl rfl)

end AmplienceSfcc
